import Mathlib

/-!
Verification of the audio-to-LED visualizer pipeline (`src/visualizer.py`).

The per-block pipeline of `callback` is embedded shallowly:
band energies, the smoother and the automatic gain control (AGC) are
modelled over `ℚ` (the Python code computes with floats; the claims are
about the exact arithmetic formulas), the band aggregator over `ℝ`
because it takes a square root, the frame queue as a list of frames, and
the serial frame as a list of bytes (`ℕ` below 256).
-/

namespace Visualizer

/-! ## Constants from the source (`src/visualizer.py`, lines 16-45) -/

/-- `RATE = 44100`, the sampling rate in Hz. -/
def RATE : ℚ := 44100

/-- `SAMPLES = 1024`, number of samples per audio frame. -/
def SAMPLES : ℕ := 1024

/-- `BANDS = 8`, number of frequency bands sent over serial. -/
def BANDS : ℕ := 8

/-- `LEVEL_SMOOTH = 0.6`, the smoothing factor `alpha`. -/
def LEVEL_SMOOTH : ℚ := 6/10

/-- `AGC_DECAY = 0.995`, the automatic gain control decay factor. -/
def AGC_DECAY : ℚ := 995/1000

/-- `q = queue.Queue(maxsize=16)`: queue capacity. -/
def QUEUE_CAP : ℕ := 16

/-- The sync byte `0xFF` prepended to every frame (line 82). -/
def SYNC : ℕ := 0xFF

/-! ## Smoother (lines 69-72)

```
if 'prev' not in callback.__dict__:
    callback.prev = bands
bands = LEVEL_SMOOTH * bands + (1-LEVEL_SMOOTH) * callback.prev
callback.prev = bands
```

The persistent `callback.prev` is modelled as an `Option (List ℚ)`:
`none` before the first invocation. One invocation returns the output
list together with the new state. -/

/-- Elementwise blend `alpha*raw + (1-alpha)*prev` of one band. -/
def smoothVal (r p : ℚ) : ℚ := LEVEL_SMOOTH * r + (1 - LEVEL_SMOOTH) * p

/-- One invocation of the smoother: output list and updated state. -/
def smoothStep (prev : Option (List ℚ)) (raw : List ℚ) :
    List ℚ × Option (List ℚ) :=
  let p := prev.getD raw
  let out := List.zipWith smoothVal raw p
  (out, some out)

/-! ## GainController / AGC (lines 76-77)

```
peak = max(peak*AGC_DECAY, bands.max())
levels = np.clip((bands/peak)*255, 0, 255).astype(np.uint8)
```
-/

/-- `numpy`-style maximum of a list (`bands.max()`); the list fed to it
in the source always has `BANDS = 8` elements, the `[]` branch is junk. -/
def npMax : List ℚ → ℚ
  | [] => 0
  | x :: xs => xs.foldl max x

/-- `np.clip(x, lo, hi) = min(max(x, lo), hi)`. -/
def clip (lo hi x : ℚ) : ℚ := min (max x lo) hi

/-- Conversion of a float to an integer by truncation toward zero,
as `.astype(np.uint8)` does; the source only applies it to values
already clipped into `[0, 255]`, where no wrap-around occurs. -/
def truncToZero (x : ℚ) : ℤ := if x < 0 then -Int.floor (-x) else Int.floor x

/-- The AGC peak update: `peak = max(peak*AGC_DECAY, bands.max())`. -/
def agcPeak (peak : ℚ) (bands : List ℚ) : ℚ :=
  max (peak * AGC_DECAY) (npMax bands)

/-- `np.clip((bands/peak)*255, 0, 255).astype(np.uint8)`. -/
def normalize (bands : List ℚ) (peak : ℚ) : List ℕ :=
  bands.map (fun x => (truncToZero (clip 0 255 (x / peak * 255))).toNat)

/-- One AGC invocation on a block: updates the peak first, then
normalizes with the new peak. -/
def agcStep (peak : ℚ) (bands : List ℚ) : ℚ × List ℕ :=
  (agcPeak peak bands, normalize bands (agcPeak peak bands))

/-- The peak after processing a sequence of blocks, starting from a
given peak (the source initializes `peak = 1.0`, line 38). -/
def agcPeakRun (peak0 : ℚ) (blocks : List (List ℚ)) : ℚ :=
  blocks.foldl agcPeak peak0

/-! ## FrameEncoder (line 82)

`b'\xFF' + struct.pack('<8B', *levels)`: sync byte then the 8 level
bytes in band order. The receiver (ESP32 firmware) is not part of this
repository; `decodeFrame` below is modelled from the spec. -/

/-- A frame: the sync byte followed by the level bytes in band order. -/
def encode (levels : List ℕ) : List ℕ := SYNC :: levels

/-- Modelled from the spec: the decoder on the receiving side is not in
`src/` (only the sender is); per the spec, decoding an `EncodedFrame`
recovers the sync byte and the original level array. -/
def decodeFrame (frame : List ℕ) : Option (ℕ × List ℕ) :=
  match frame with
  | [] => none
  | s :: rest => some (s, rest)

/-! ## FrameQueue (lines 45, 81-84, 96-97)

`queue.Queue(maxsize=16)` with `put_nowait` (the `queue.Full` exception
is caught and the frame is dropped) and blocking `get`. Modelled as a
list with the oldest item at the head; `dequeue` returns `none` on an
empty queue, standing for "the caller blocks". -/

/-- Non-blocking enqueue with the drop-newest policy: returns the new
queue and whether the frame was accepted. -/
def enqueue (C : ℕ) (q : List α) (f : α) : List α × Bool :=
  if q.length < C then (q ++ [f], true) else (q, false)

/-- Blocking dequeue: removes and returns the oldest item; `none` means
the consumer blocks (queue empty). -/
def dequeue (q : List α) : Option (α × List α) :=
  match q with
  | [] => none
  | x :: xs => some (x, xs)

/-- Enqueue a sequence of frames one after the other, keeping whatever
the drop-newest policy retains. -/
def enqueueAll (C : ℕ) (q : List α) (fs : List α) : List α :=
  fs.foldl (fun acc f => (enqueue C acc f).1) q

/-! ## BandMapper (lines 24-33)

```
EDGE_HZ  = np.logspace(np.log10(60), np.log10(RATE/2), BANDS+1)
FREQS    = np.fft.rfftfreq(SAMPLES, 1/RATE)
BIN2BAND = np.digitize(FREQS, EDGE_HZ) - 1
```

`np.logspace(log10 a, log10 b, n+1)` is exactly the geometric sequence
`a * r^i` for `i = 0..n` whose constant ratio `r = (b/a)^(1/n)` makes
the last edge land on `b`.  That ratio is irrational for the concrete
parameters, so the edges are embedded over `ℚ` parametrically in the
ratio, with the endpoint condition `low * r^n = nyquist` carried as a
hypothesis in the theorems. -/

/-- Edge `i` of the logarithmically spaced band boundaries:
`low * r^i`, the closed form of `np.logspace`. -/
def edgeHz (low r : ℚ) (i : ℕ) : ℚ := low * r ^ i

/-- The list of the `n+1` band edges (`EDGE_HZ`). -/
def edgeList (low r : ℚ) (n : ℕ) : List ℚ :=
  (List.range (n + 1)).map (edgeHz low r)

/-- Center frequency of FFT bin `i`:
`np.fft.rfftfreq(SAMPLES, 1/RATE)[i] = i * RATE / SAMPLES`. -/
def binFreq (rate : ℚ) (samples : ℕ) (i : ℕ) : ℚ := i * rate / samples

/-- `np.digitize(x, bins)` for a monotonically increasing `bins` and
the default `right=False`: the number of bin edges `≤ x`, i.e. the `i`
with `bins[i-1] <= x < bins[i]` (0 when `x < bins[0]`, `len(bins)` when
`x >= bins[-1]`). -/
def digitize (x : ℚ) (bins : List ℚ) : ℕ :=
  bins.countP (fun e => decide (e ≤ x))

/-- `BIN2BAND` entry for a bin of frequency `f`:
`np.digitize(f, EDGE_HZ) - 1` (so `-1` below the first edge). -/
def bin2band (f : ℚ) (low r : ℚ) (n : ℕ) : ℤ :=
  (digitize f (edgeList low r n) : ℤ) - 1

/-! ## BandAggregator (lines 61-65)

```
bands = np.zeros(BANDS)
for b in range(BANDS):
    idx = BIN2BAND == b
    if idx.any():
        bands[b] = np.sqrt(np.mean(spec[idx]**2))
```

The spectrum magnitudes are reals (the source takes `np.abs` of an
FFT); the square root forces this component into `ℝ`. The bin-to-band
table is abstracted as a function from bin index to assigned band. -/

/-- The bins (among `0..nbins-1`) that the table assigns to band `b`. -/
def mappedBins (table : ℕ → ℤ) (nbins : ℕ) (b : ℕ) : List ℕ :=
  (List.range nbins).filter (fun i => decide (table i = (b : ℤ)))

/-- RMS band energy: `sqrt(mean(spec[idx]**2))` over the bins mapped to
band `b`, or `0` when no bin maps to `b` (the `np.zeros` entry is kept). -/
noncomputable def aggregateBand (spec : ℕ → ℝ) (table : ℕ → ℤ)
    (nbins : ℕ) (b : ℕ) : ℝ :=
  let idx := mappedBins table nbins b
  if idx.isEmpty then 0
  else Real.sqrt ((idx.map (fun i => spec i ^ 2)).sum / idx.length)

/-! ## Iterations used by the convergence claims -/

/-- The smoother output of one band after `n` calls with the constant
raw value `v`, starting from stored value `p`. -/
def smoothConstIter (v p : ℚ) : ℕ → ℚ
  | 0 => p
  | n + 1 => smoothVal v (smoothConstIter v p n)

/-- The AGC peak after `n` blocks whose band energies all equal `v`,
starting from peak `p`. -/
def agcConstIter (v p : ℚ) : ℕ → ℚ
  | 0 => p
  | n + 1 => agcPeak (agcConstIter v p n) (List.replicate BANDS v)

/-! ## Helper lemmas -/

lemma smoothVal_self (r : ℚ) : smoothVal r r = r := by
  unfold smoothVal LEVEL_SMOOTH; ring

lemma zipWith_smoothVal_self (l : List ℚ) :
    List.zipWith smoothVal l l = l := by
  induction l with
  | nil => rfl
  | cons x xs ih => simp [List.zipWith, smoothVal_self, ih]

lemma le_foldl_max (ys : List ℚ) (a b : ℚ) (h : a ≤ b) :
    a ≤ ys.foldl max b := by
  induction ys generalizing b with
  | nil => simpa using h
  | cons z zs ih => exact ih (max b z) (h.trans (le_max_left b z))

lemma mem_le_foldl_max {x : ℚ} (ys : List ℚ) (b : ℚ) (hx : x ∈ ys) :
    x ≤ ys.foldl max b := by
  induction ys generalizing b with
  | nil => exact absurd hx (List.not_mem_nil x)
  | cons z zs ih =>
    rcases List.mem_cons.mp hx with h | h
    · exact le_foldl_max zs x (max b z) (h ▸ le_max_right b z)
    · exact ih (max b z) h

lemma le_npMax_of_mem {x : ℚ} {l : List ℚ} (hx : x ∈ l) : x ≤ npMax l := by
  match l with
  | [] => exact absurd hx (List.not_mem_nil x)
  | y :: ys =>
    show x ≤ ys.foldl max y
    rcases List.mem_cons.mp hx with h | h
    · exact le_foldl_max ys x y h.le
    · exact mem_le_foldl_max ys y h

lemma npMax_replicate_succ (k : ℕ) (v : ℚ) :
    npMax (List.replicate (k + 1) v) = v := by
  show List.foldl max v (List.replicate k v) = v
  induction k with
  | zero => rfl
  | succ k ih => simpa [List.replicate_succ, max_self] using ih

lemma agcPeak_pos {p : ℚ} (hp : 0 < p) (bands : List ℚ) :
    0 < agcPeak p bands :=
  lt_of_lt_of_le (mul_pos hp (by norm_num [AGC_DECAY])) (le_max_left _ _)

lemma agcPeakRun_pos (blocks : List (List ℚ)) {p : ℚ} (hp : 0 < p) :
    0 < agcPeakRun p blocks := by
  induction blocks generalizing p with
  | nil => simpa [agcPeakRun] using hp
  | cons blk blks ih => exact ih (agcPeak_pos hp blk)

/-! ## Claim theorems -/

/-- C2: the Smoother's first invocation returns its input unchanged and
initializes the persistent previous state to that input; every
subsequent invocation returns `output[b] = alpha*raw[b] +
(1-alpha)*previous[b]` for each band `b` (with the fixed
`alpha = LEVEL_SMOOTH` in `(0,1]`) and then sets `previous` to that
output. -/
theorem c2_smoother_step (raw prev : List ℚ) (b : ℕ)
    (hbr : b < raw.length) (hbp : b < prev.length)
    (hb : b < (smoothStep (some prev) raw).1.length) :
    smoothStep none raw = (raw, some raw)
    ∧ (0 < LEVEL_SMOOTH ∧ LEVEL_SMOOTH ≤ 1)
    ∧ (smoothStep (some prev) raw).1.get ⟨b, hb⟩ =
        LEVEL_SMOOTH * raw.get ⟨b, hbr⟩ +
          (1 - LEVEL_SMOOTH) * prev.get ⟨b, hbp⟩
    ∧ (smoothStep (some prev) raw).2 = some ((smoothStep (some prev) raw).1) := by
  refine ⟨?_, ⟨by norm_num [LEVEL_SMOOTH], by norm_num [LEVEL_SMOOTH]⟩, ?_, rfl⟩
  · simp [smoothStep, zipWith_smoothVal_self, smoothVal_self]
  · simp [smoothStep, List.get_eq_getElem, List.getElem_zipWith, smoothVal]

theorem c2_smoother_step_witness :
    (smoothStep (some [(3 : ℚ), 4]) [(1 : ℚ), 2]).1.get ⟨0, by decide⟩ =
      LEVEL_SMOOTH * 1 + (1 - LEVEL_SMOOTH) * 3 :=
  (c2_smoother_step [1, 2] [3, 4] 0 (by decide) (by decide) (by decide)).2.2.1

/-- C1: for every processed block, the AGC first updates its peak as
`peak' = max(peak * AGC_DECAY, max(bands))` — so the new peak is never
below the current block's maximum smoothed band energy — and then
produces, for each band `b`, the clamp of `bands[b] / peak' * 255` into
`[0, 255]`, converted to an integer by truncation toward zero. -/
theorem c1_agc_block (peak : ℚ) (bands : List ℚ) (b : ℕ) (x : ℚ)
    (hx : x ∈ bands) (hb : b < bands.length)
    (hb2 : b < (agcStep peak bands).2.length) :
    (agcStep peak bands).1 = max (peak * AGC_DECAY) (npMax bands)
    ∧ x ≤ (agcStep peak bands).1
    ∧ (agcStep peak bands).2.get ⟨b, hb2⟩ =
        (truncToZero (clip 0 255
          (bands.get ⟨b, hb⟩ / (agcStep peak bands).1 * 255))).toNat := by
  refine ⟨rfl, (le_npMax_of_mem hx).trans (le_max_right _ _), ?_⟩
  simp [agcStep, normalize, List.get_eq_getElem, List.getElem_map]

theorem c1_agc_block_witness :
    (agcStep 1 [(2 : ℚ), 1]).1 = max (1 * AGC_DECAY) (npMax [(2 : ℚ), 1])
    ∧ (2 : ℚ) ≤ (agcStep 1 [(2 : ℚ), 1]).1
    ∧ (agcStep 1 [(2 : ℚ), 1]).2.get ⟨0, by decide⟩ =
        (truncToZero (clip 0 255
          (([(2 : ℚ), 1]).get ⟨0, by decide⟩ / (agcStep 1 [(2 : ℚ), 1]).1 * 255))).toNat :=
  c1_agc_block 1 [2, 1] 0 2 (by decide) (by decide) (by decide)

/-- C9: the AGC peak is strictly positive in every reachable state:
starting from `1.0`, after any sequence of blocks the peak is `> 0`
(so `bands/peak` never divides by zero), even though the peak can decay
below its initial `1.0` — e.g. one block of silence leaves it at
`0.995 < 1`. -/
theorem c9_peak_never_zero (blocks : List (List ℚ)) :
    0 < agcPeakRun 1 blocks
    ∧ agcPeakRun 1 blocks ≠ 0
    ∧ agcPeakRun 1 [List.replicate BANDS 0] < 1 := by
  refine ⟨agcPeakRun_pos blocks one_pos, (agcPeakRun_pos blocks one_pos).ne', ?_⟩
  have h1 : npMax (List.replicate BANDS 0) = 0 := npMax_replicate_succ 7 0
  show agcPeak 1 (List.replicate BANDS 0) < 1
  unfold agcPeak
  rw [h1, max_eq_left (by norm_num [AGC_DECAY])]
  norm_num [AGC_DECAY]

/-- C10: the sync byte `0xFF` is not unique within a frame: whenever
some level equals 255, the encoded frame contains the byte `0xFF` at a
position other than the first, so a receiver cannot identify frame
boundaries by searching for `0xFF` alone. -/
theorem c10_sync_byte_not_unique (levels : List ℕ) (i : ℕ)
    (hi : i < levels.length) (h255 : levels.get ⟨i, hi⟩ = 255) :
    ∃ j, 0 < j ∧ ∃ hj : j < (encode levels).length,
      (encode levels).get ⟨j, hj⟩ = SYNC := by
  have hlen : i + 1 < (encode levels).length := by
    simp only [encode, List.length_cons]
    omega
  refine ⟨i + 1, Nat.succ_pos i, hlen, ?_⟩
  simpa [encode, SYNC, List.get_eq_getElem] using h255

theorem c10_sync_byte_not_unique_witness :
    ∃ j, 0 < j ∧ ∃ hj : j < (encode [255, 0]).length,
      (encode [255, 0]).get ⟨j, hj⟩ = SYNC :=
  c10_sync_byte_not_unique [255, 0] 0 (by decide) (by decide)

/-- C6: for every `NormalizedLevels` array of byte values, encoding
produces a frame of exactly `BANDS + 1` bytes — the sync byte `0xFF`
followed by the level bytes in band order — and decoding that frame
recovers exactly the original levels and the sync byte (round trip). -/
theorem c6_frame_roundtrip (levels : List ℕ)
    (hlen : levels.length = BANDS) (hbyte : ∀ x ∈ levels, x ≤ 255) :
    (encode levels).length = BANDS + 1
    ∧ encode levels = SYNC :: levels
    ∧ decodeFrame (encode levels) = some (SYNC, levels) := by
  refine ⟨?_, rfl, rfl⟩
  simp [encode, hlen]

theorem c6_frame_roundtrip_witness :
    (encode (List.replicate 8 7)).length = BANDS + 1
    ∧ encode (List.replicate 8 7) = SYNC :: List.replicate 8 7
    ∧ decodeFrame (encode (List.replicate 8 7)) =
        some (SYNC, List.replicate 8 7) :=
  c6_frame_roundtrip (List.replicate 8 7) (by decide) (by decide)

lemma enqueueAll_eq_append_take {α : Type} (C : ℕ) (fs : List α) :
    ∀ q : List α, q.length ≤ C →
      enqueueAll C q fs = q ++ fs.take (C - q.length) := by
  induction fs with
  | nil => intro q hq; simp [enqueueAll]
  | cons f fs ih =>
    intro q hq
    by_cases h : q.length < C
    · have hstep : enqueueAll C q (f :: fs) = enqueueAll C (q ++ [f]) fs := by
        simp [enqueueAll, enqueue, h]
      rw [hstep, ih (q ++ [f]) (by simp; omega)]
      have hc : C - q.length = (C - (q.length + 1)) + 1 := by omega
      rw [hc]
      simp [List.take_succ_cons]
    · have hstep : enqueueAll C q (f :: fs) = enqueueAll C q fs := by
        simp [enqueueAll, enqueue, h]
      rw [hstep, ih q hq]
      have hc : C - q.length = 0 := by omega
      simp [hc]

/-- C3: for the bounded frame queue of capacity `QUEUE_CAP = 16`:
enqueue is non-blocking and on a full queue discards the new frame and
reports `false`, leaving the retained items unchanged in FIFO order
(drop-newest); enqueuing any sequence into the empty queue retains
exactly the first `QUEUE_CAP` frames in order; dequeue removes and
returns the oldest item (head), blocking (no result) only on an empty
queue; and the queue length never exceeds `QUEUE_CAP`. -/
theorem c3_frame_queue {α : Type} (q : List α) (f x : α) (xs fs : List α)
    (hcap : q.length ≤ QUEUE_CAP) :
    (q.length = QUEUE_CAP → enqueue QUEUE_CAP q f = (q, false))
    ∧ (enqueue QUEUE_CAP q f).1.length ≤ QUEUE_CAP
    ∧ enqueueAll QUEUE_CAP [] fs = fs.take QUEUE_CAP
    ∧ dequeue (x :: xs) = some (x, xs)
    ∧ dequeue ([] : List α) = none := by
  refine ⟨?_, ?_, ?_, rfl, rfl⟩
  · intro h
    simp [enqueue, h]
  · by_cases h : q.length < QUEUE_CAP
    · simp only [enqueue, if_pos h, List.length_append, List.length_singleton]
      omega
    · simpa [enqueue, if_neg h] using hcap
  · simpa using enqueueAll_eq_append_take QUEUE_CAP fs [] (by simp)

theorem c3_frame_queue_witness :
    enqueue QUEUE_CAP (List.replicate 16 (0 : ℕ)) 1 =
      (List.replicate 16 0, false) :=
  (c3_frame_queue (List.replicate 16 0) 1 2 [3] [4, 5] (by decide)).1
    (by decide)

/-! ## Helpers for the convergence claims C7 and C8 -/

lemma agc_decay_pos : (0 : ℚ) < AGC_DECAY := by norm_num [AGC_DECAY]

lemma agc_decay_lt_one : AGC_DECAY < 1 := by norm_num [AGC_DECAY]

lemma npMax_replicate_BANDS (v : ℚ) : npMax (List.replicate BANDS v) = v :=
  npMax_replicate_succ 7 v

lemma agcConstIter_succ (v p : ℚ) (n : ℕ) :
    agcConstIter v p (n + 1) = max (agcConstIter v p n * AGC_DECAY) v := by
  show agcPeak _ _ = _
  unfold agcPeak
  rw [npMax_replicate_BANDS]

lemma agcConstIter_le (v p : ℚ) (hv : 0 ≤ v) (n : ℕ) :
    agcConstIter v p n ≤ max (p * AGC_DECAY ^ n) v := by
  induction n with
  | zero => simpa [agcConstIter] using le_max_left p v
  | succ n ih =>
    rw [agcConstIter_succ]
    refine max_le ?_ (le_max_right _ _)
    calc agcConstIter v p n * AGC_DECAY
        ≤ max (p * AGC_DECAY ^ n) v * AGC_DECAY :=
          mul_le_mul_of_nonneg_right ih agc_decay_pos.le
      _ = max (p * AGC_DECAY ^ n * AGC_DECAY) (v * AGC_DECAY) :=
          max_mul_of_nonneg _ _ agc_decay_pos.le
      _ ≤ max (p * AGC_DECAY ^ (n + 1)) v := by
          apply max_le_max
          · rw [pow_succ, mul_assoc]
          · exact mul_le_of_le_one_right hv agc_decay_lt_one.le

lemma agcConstIter_ge (v p : ℚ) {n : ℕ} (hn : 1 ≤ n) :
    v ≤ agcConstIter v p n := by
  obtain ⟨m, rfl⟩ := Nat.exists_eq_add_of_le hn
  rw [Nat.add_comm, agcConstIter_succ]
  exact le_max_right _ _

lemma agcConstIter_fixed (v p : ℚ) (hv : 0 ≤ v) {n : ℕ}
    (h : agcConstIter v p n = v) : ∀ m, n ≤ m → agcConstIter v p m = v := by
  intro m hm
  induction m, hm using Nat.le_induction with
  | base => exact h
  | succ m _ ih =>
    rw [agcConstIter_succ, ih]
    exact max_eq_right (mul_le_of_le_one_right hv agc_decay_lt_one.le)

lemma normalize_replicate_self (v : ℚ) (hv : v ≠ 0) :
    normalize (List.replicate BANDS v) v = List.replicate BANDS 255 := by
  unfold normalize
  rw [List.map_replicate]
  congr 1
  rw [div_self hv]
  norm_num [clip, max_def, min_def, truncToZero]
  decide

/-- C7: iterating the AGC on blocks whose band energies all equal a
constant `v > 0` drives the peak to exactly `v` after finitely many
steps (and it stays there), with the normalized output at 255 in every
band; and on any block whose maximum energy is below `peak*AGC_DECAY`
(silence after a loud passage) the peak is multiplied by exactly the
decay factor, so a run of silent blocks decays it geometrically. -/
theorem c7_agc_convergence (v p : ℚ) (hv : 0 < v) (hp : 0 < p) :
    (∃ n, ∀ m, n ≤ m → agcConstIter v p m = v ∧
        normalize (List.replicate BANDS v) (agcConstIter v p m) =
          List.replicate BANDS 255)
    ∧ (∀ peak bands, npMax bands < peak * AGC_DECAY →
        agcPeak peak bands = peak * AGC_DECAY)
    ∧ (∀ n, agcConstIter 0 p n = p * AGC_DECAY ^ n) := by
  refine ⟨?_, ?_, ?_⟩
  · obtain ⟨k, hk⟩ := exists_pow_lt_of_lt_one (div_pos hv hp) agc_decay_lt_one
    have hkv : p * AGC_DECAY ^ (k + 1) ≤ v := by
      have h1 : AGC_DECAY ^ (k + 1) ≤ AGC_DECAY ^ k :=
        pow_le_pow_of_le_one agc_decay_pos.le agc_decay_lt_one.le
          (Nat.le_succ k)
      have h2 : p * AGC_DECAY ^ k < v := by
        calc p * AGC_DECAY ^ k = AGC_DECAY ^ k * p := mul_comm _ _
          _ < v / p * p := mul_lt_mul_of_pos_right hk hp
          _ = v := div_mul_cancel₀ v hp.ne'
      exact (mul_le_mul_of_nonneg_left h1 hp.le).trans h2.le
    have hreach : agcConstIter v p (k + 1) = v := by
      have hle : agcConstIter v p (k + 1) ≤ v := by
        have := agcConstIter_le v p hv.le (k + 1)
        rwa [max_eq_right hkv] at this
      exact le_antisymm hle (agcConstIter_ge v p (Nat.succ_le_succ k.zero_le))
    refine ⟨k + 1, fun m hm => ?_⟩
    have hfix := agcConstIter_fixed v p hv.le hreach m hm
    exact ⟨hfix, by rw [hfix]; exact normalize_replicate_self v hv.ne'⟩
  · intro peak bands h
    exact max_eq_left h.le
  · intro n
    induction n with
    | zero => simp [agcConstIter]
    | succ n ih =>
      rw [agcConstIter_succ, ih]
      have hpos : 0 < p * AGC_DECAY ^ n * AGC_DECAY :=
        mul_pos (mul_pos hp (pow_pos agc_decay_pos n)) agc_decay_pos
      rw [max_eq_left hpos.le, pow_succ, mul_assoc]

theorem c7_agc_convergence_witness :
    agcPeak 1 [(0 : ℚ), 0] = 1 * AGC_DECAY :=
  (c7_agc_convergence 1 1 one_pos one_pos).2.1 1 [0, 0]
    (by norm_num [npMax, List.foldl, AGC_DECAY])

lemma zipWith_replicate_both (f : ℚ → ℚ → ℚ) (k : ℕ) (a b : ℚ) :
    List.zipWith f (List.replicate k a) (List.replicate k b) =
      List.replicate k (f a b) := by
  induction k with
  | zero => rfl
  | succ k ih => simp [List.replicate_succ, ih]

lemma smoothConstIter_dist (v p : ℚ) (n : ℕ) :
    smoothConstIter v p (n + 1) - v =
      (1 - LEVEL_SMOOTH) * (smoothConstIter v p n - v) := by
  show smoothVal v _ - v = _
  unfold smoothVal
  ring

lemma smoothConstIter_dist_abs (v p : ℚ) (n : ℕ) :
    |smoothConstIter v p (n + 1) - v| =
      (1 - LEVEL_SMOOTH) * |smoothConstIter v p n - v| := by
  rw [smoothConstIter_dist, abs_mul,
    abs_of_nonneg (by norm_num [LEVEL_SMOOTH] : (0 : ℚ) ≤ 1 - LEVEL_SMOOTH)]

lemma smoothConstIter_closed (v p : ℚ) (n : ℕ) :
    |smoothConstIter v p n - v| = (1 - LEVEL_SMOOTH) ^ n * |p - v| := by
  induction n with
  | zero => simp [smoothConstIter]
  | succ n ih =>
    rw [smoothConstIter_dist_abs, ih, pow_succ]
    ring

/-- C8: for every initial Smoother state, feeding the same constant
band value `v` makes the output converge toward `v` monotonically —
the distance `|output - v|` shrinks by exactly the factor
`(1 - LEVEL_SMOOTH)` on each call — coming within any `ε > 0` after
finitely many calls (the distance after `n` calls is
`(1 - LEVEL_SMOOTH)^n` times the initial distance); one list-level
smoother call on constant inputs acts as this scalar recurrence in
every band. -/
theorem c8_smoother_convergence (v p ε : ℚ) (hε : 0 < ε) :
    (∀ q, (smoothStep (some (List.replicate BANDS q))
        (List.replicate BANDS v)).1 = List.replicate BANDS (smoothVal v q))
    ∧ (∀ n, |smoothConstIter v p (n + 1) - v| =
        (1 - LEVEL_SMOOTH) * |smoothConstIter v p n - v|)
    ∧ (∀ n, |smoothConstIter v p (n + 1) - v| ≤ |smoothConstIter v p n - v|)
    ∧ (∀ n, |smoothConstIter v p n - v| = (1 - LEVEL_SMOOTH) ^ n * |p - v|)
    ∧ (∃ n, ∀ m, n ≤ m → |smoothConstIter v p m - v| < ε) := by
  refine ⟨?_, smoothConstIter_dist_abs v p, ?_, smoothConstIter_closed v p, ?_⟩
  · intro q
    show List.zipWith smoothVal _ _ = _
    exact zipWith_replicate_both smoothVal BANDS v q
  · intro n
    rw [smoothConstIter_dist_abs]
    exact mul_le_of_le_one_left (abs_nonneg _) (by norm_num [LEVEL_SMOOTH])
  · have hD0 : 0 ≤ |p - v| := abs_nonneg _
    have hD1 : (0 : ℚ) < |p - v| + 1 := by linarith
    obtain ⟨k, hk⟩ := exists_pow_lt_of_lt_one (div_pos hε hD1)
      (by norm_num [LEVEL_SMOOTH] : (1 - LEVEL_SMOOTH : ℚ) < 1)
    refine ⟨k, fun m hm => ?_⟩
    rw [smoothConstIter_closed]
    calc (1 - LEVEL_SMOOTH) ^ m * |p - v|
        ≤ (1 - LEVEL_SMOOTH) ^ k * |p - v| :=
          mul_le_mul_of_nonneg_right
            (pow_le_pow_of_le_one (by norm_num [LEVEL_SMOOTH])
              (by norm_num [LEVEL_SMOOTH]) hm) hD0
      _ ≤ (1 - LEVEL_SMOOTH) ^ k * (|p - v| + 1) :=
          mul_le_mul_of_nonneg_left (by linarith)
            (pow_nonneg (by norm_num [LEVEL_SMOOTH]) k)
      _ < ε / (|p - v| + 1) * (|p - v| + 1) :=
          mul_lt_mul_of_pos_right hk hD1
      _ = ε := div_mul_cancel₀ ε hD1.ne'

theorem c8_smoother_convergence_witness :
    |smoothConstIter 1 2 1 - 1| ≤ |smoothConstIter 1 2 0 - 1| :=
  (c8_smoother_convergence 1 2 1 one_pos).2.2.1 0

/-- C5: for every spectrum and band map, the band aggregator yields
`sqrt(mean of spectrum[i]^2 over the bins mapped to b)`; a band with no
mapped bins yields energy 0, and a band with exactly one mapped bin of
magnitude `m ≥ 0` yields energy exactly `m`. -/
theorem c5_band_aggregator (spec : ℕ → ℝ) (table : ℕ → ℤ)
    (nbins b i : ℕ) (m : ℝ) (hm : 0 ≤ m) :
    (mappedBins table nbins b = [] → aggregateBand spec table nbins b = 0)
    ∧ (mappedBins table nbins b ≠ [] →
        aggregateBand spec table nbins b =
          Real.sqrt
            (((mappedBins table nbins b).map (fun j => spec j ^ 2)).sum /
              (mappedBins table nbins b).length))
    ∧ (mappedBins table nbins b = [i] → spec i = m →
        aggregateBand spec table nbins b = m) := by
  refine ⟨?_, ?_, ?_⟩
  · intro h
    simp [aggregateBand, h]
  · intro h
    rw [aggregateBand]
    simp only [List.isEmpty_iff, if_neg h]
  · intro h hs
    rw [aggregateBand]
    simp only [h, List.isEmpty_cons, if_neg Bool.false_ne_true, List.map_cons,
      List.map_nil, List.sum_cons, List.sum_nil, List.length_singleton,
      Nat.cast_one, add_zero, div_one, hs]
    exact Real.sqrt_sq hm

theorem c5_band_aggregator_witness :
    aggregateBand (fun _ => (3 : ℝ)) (fun _ => (0 : ℤ)) 1 0 = 3 :=
  (c5_band_aggregator (fun _ => (3 : ℝ)) (fun _ => (0 : ℤ)) 1 0 0 3
    (by norm_num)).2.2 rfl rfl

/-! ## Helpers for the band-mapper claim C4 -/

lemma countP_range_min (m b : ℕ) (p : ℕ → Bool)
    (hp : ∀ i, i < m → (p i = true ↔ i ≤ b)) :
    (List.range m).countP p = min m (b + 1) := by
  induction m with
  | zero => simp
  | succ m ih =>
    rw [List.range_succ, List.countP_append,
      ih (fun i hi => hp i (Nat.lt_succ_of_lt hi))]
    have hm := hp m (Nat.lt_succ_self m)
    by_cases h : m ≤ b
    · have ht : p m = true := hm.mpr h
      simp only [List.countP_cons, List.countP_nil, ht, if_true]
      omega
    · have hf : p m = false := by
        cases hpm : p m
        · rfl
        · exact absurd (hm.mp hpm) h
      simp only [List.countP_cons, List.countP_nil, hf, Bool.false_eq_true,
        if_false]
      omega

lemma edgeHz_strictMono {low r : ℚ} (hlow : 0 < low) (hr : 1 < r) :
    StrictMono (edgeHz low r) := fun _ _ hij =>
  mul_lt_mul_of_pos_left (pow_lt_pow_right₀ hr hij) hlow

lemma digitize_edgeList (x low r : ℚ) (n : ℕ) :
    digitize x (edgeList low r n) =
      (List.range (n + 1)).countP (fun i => decide (edgeHz low r i ≤ x)) := by
  unfold digitize edgeList
  rw [List.countP_map]
  rfl

lemma digitize_in_band {low r : ℚ} (hlow : 0 < low) (hr : 1 < r)
    {x : ℚ} {n b : ℕ} (hb : b ≤ n)
    (h1 : edgeHz low r b ≤ x) (h2 : x < edgeHz low r (b + 1)) :
    digitize x (edgeList low r n) = b + 1 := by
  rw [digitize_edgeList, countP_range_min (n + 1) b]
  · omega
  · intro i _
    simp only [decide_eq_true_eq]
    constructor
    · intro hle
      by_contra hgt
      push_neg at hgt
      have := (edgeHz_strictMono hlow hr).monotone (show b + 1 ≤ i from hgt)
      linarith
    · intro hib
      exact le_trans ((edgeHz_strictMono hlow hr).monotone hib) h1

lemma digitize_below {low r : ℚ} (hlow : 0 < low) (hr : 1 < r)
    {x : ℚ} {n : ℕ} (h : x < edgeHz low r 0) :
    digitize x (edgeList low r n) = 0 := by
  rw [digitize_edgeList]
  refine List.countP_eq_zero.mpr ?_
  intro i _
  simp only [decide_eq_true_eq]
  intro hle
  have := (edgeHz_strictMono hlow hr).monotone (Nat.zero_le i)
  linarith

lemma digitize_above {low r : ℚ} (hlow : 0 < low) (hr : 1 < r)
    {x : ℚ} {n : ℕ} (h : edgeHz low r n ≤ x) :
    digitize x (edgeList low r n) = n + 1 := by
  rw [digitize_edgeList, countP_range_min (n + 1) (n + 1)]
  · omega
  · intro i hi
    simp only [decide_eq_true_eq]
    constructor
    · intro _
      omega
    · intro _
      exact le_trans
        ((edgeHz_strictMono hlow hr).monotone (by omega : i ≤ n)) h

/-- C4: for all valid parameters, the band-edge table is strictly
increasing with a constant ratio `r` between consecutive edges
(logarithmic spacing from `low` up to the Nyquist frequency
`rate/2 = low * r^n`); every bin whose center frequency
`f = binIndex * rate / samples` satisfies `edges[b] <= f < edges[b+1]`
is assigned band `b` in `[0, n-1]`; and bins with `f < edges[0]` or
`f >= edges[n]` get the out-of-range markers `-1` and `n`, hence are
excluded from the aggregation over bands `0..n-1`. -/
theorem c4_band_mapper (low r rate : ℚ) (samples n : ℕ)
    (hlow : 0 < low) (hr : 1 < r) (hend : edgeHz low r n = rate / 2) :
    StrictMono (edgeHz low r)
    ∧ (∀ j, edgeHz low r (j + 1) / edgeHz low r j = r)
    ∧ edgeHz low r 0 = low
    ∧ edgeHz low r n = rate / 2
    ∧ (∀ i b : ℕ, b < n →
        edgeHz low r b ≤ binFreq rate samples i →
        binFreq rate samples i < edgeHz low r (b + 1) →
        bin2band (binFreq rate samples i) low r n = b)
    ∧ (∀ i : ℕ, binFreq rate samples i < edgeHz low r 0 →
        bin2band (binFreq rate samples i) low r n = -1)
    ∧ (∀ i : ℕ, edgeHz low r n ≤ binFreq rate samples i →
        bin2band (binFreq rate samples i) low r n = n)
    ∧ (∀ i : ℕ, (binFreq rate samples i < edgeHz low r 0 ∨
          edgeHz low r n ≤ binFreq rate samples i) →
        ∀ b : ℕ, b < n →
          bin2band (binFreq rate samples i) low r n ≠ (b : ℤ)) := by
  have hmono := edgeHz_strictMono hlow hr
  have hlo : ∀ i : ℕ, binFreq rate samples i < edgeHz low r 0 →
      bin2band (binFreq rate samples i) low r n = -1 := by
    intro i h
    rw [bin2band, digitize_below hlow hr h]
    rfl
  have hhi : ∀ i : ℕ, edgeHz low r n ≤ binFreq rate samples i →
      bin2band (binFreq rate samples i) low r n = n := by
    intro i h
    rw [bin2band, digitize_above hlow hr h]
    push_cast
    ring
  refine ⟨hmono, ?_, by simp [edgeHz], hend, ?_, hlo, hhi, ?_⟩
  · intro j
    unfold edgeHz
    rw [pow_succ, ← mul_assoc]
    exact mul_div_cancel_left₀ r
      (mul_ne_zero hlow.ne' (pow_ne_zero j (by linarith : r ≠ 0)))
  · intro i b hb hf1 hf2
    rw [bin2band, digitize_in_band hlow hr (Nat.le_of_lt hb) hf1 hf2]
    push_cast
    ring
  · intro i hcase b hb
    rcases hcase with h | h
    · rw [hlo i h]
      omega
    · rw [hhi i h]
      omega

theorem c4_band_mapper_witness :
    bin2band (binFreq 32 4 1) 2 2 3 = 2 :=
  (c4_band_mapper 2 2 32 4 3 (by norm_num) (by norm_num)
      (by norm_num [edgeHz])).2.2.2.2.1 1 2 (by norm_num)
    (by norm_num [edgeHz, binFreq]) (by norm_num [edgeHz, binFreq])

end Visualizer
